import Mathlib

/-!
# Verification of the AndroidOrrery ephemeris storage and interpolation core

Shallow embedding of the Python scripts:

* `scripts/convertEphemeris.py` — CSV → binary converter (the encoder);
* `scripts/verifyEphemerisSplit.py` — tolerant CSV loader, bracket search and
  interpolator;
* `scripts/compare_with_horizons.py` — the `angle_diff` primitive;
* `scripts/generatePlanetsEphemeris.py` — per-body parsing and the merge that
  emits the planets CSV.

Modelling conventions:

* A 64-bit IEEE-754 double is represented by its 64-bit pattern, a `Nat`
  below `2 ^ 64`; `struct.pack "<d"` emits exactly the 8 bytes of that
  pattern least-significant first, which `toLEBytes` reproduces, so the
  bit-for-bit round-trip claims are stated on bit patterns.
* Numeric values flowing through the loader/interpolator are modelled as `ℚ`
  (exact arithmetic; the Python scripts use binary doubles).
* Python's `%` on reals with a positive modulus is `qmod`:
  `a - b * ⌊a / b⌋`, which lands in `[0, b)`.
* A CSV token is modelled by what `float()` would return on it:
  `Option ℚ` (`none` = `ValueError`).
-/

namespace Orrery

/-! ## Binary codec (`convertEphemeris.py`)

`convert_csv_to_bin` packs each row with `struct.pack("<{W}d", *row)` and
writes the packed records back to back, counting rows. -/

/-- The 8 bytes of a 64-bit pattern, least significant byte first
(little-endian), as `struct.pack "<d"` lays out the double's bits. -/
def toLEBytes (w : ℕ) : List ℕ :=
  [w % 256, w / 256 % 256, w / 256 ^ 2 % 256, w / 256 ^ 3 % 256,
   w / 256 ^ 4 % 256, w / 256 ^ 5 % 256, w / 256 ^ 6 % 256, w / 256 ^ 7 % 256]

/-- Rebuild a 64-bit pattern from little-endian bytes. -/
def fromLEBytes (bs : List ℕ) : ℕ :=
  bs.foldr (fun b acc => b + 256 * acc) 0

/-- One packed record: the row's `W` doubles, each as 8 little-endian bytes,
in column order — `struct.pack("<{W}d", *row)`. -/
def encodeRow (r : List ℕ) : List ℕ :=
  (r.map toLEBytes).flatten

/-- `convert_csv_to_bin`'s output byte stream: all records back to back, no
header, no length prefix, no magic number. -/
def encode (rows : List (List ℕ)) : List ℕ :=
  (rows.map encodeRow).flatten

/-- Split a list into consecutive chunks of `k` elements. -/
def chunks (k : ℕ) (l : List α) : List (List α) :=
  if k = 0 then []
  else if h : l.isEmpty then []
  else l.take k :: chunks k (l.drop k)
termination_by l.length
decreasing_by
  simp only [List.isEmpty_iff] at h
  have : 0 < l.length := List.length_pos.mpr h
  simp only [List.length_drop]
  omega

/-- Modelled from the spec: the binary reader lives in the Android app, not
under `scripts/`; §4.3 specifies it as splitting the byte stream into
`total_bytes / (W * 8)` records of `W` little-endian doubles each, failing
(`TruncatedRecord`) when `total_bytes % (W * 8) ≠ 0`. -/
def decode (W : ℕ) (bs : List ℕ) : Option (List (List ℕ)) :=
  if W = 0 then none
  else if bs.length % (W * 8) ≠ 0 then none
  else some ((chunks (W * 8) bs).map fun rec => (chunks 8 rec).map fromLEBytes)

/-- `__main__` of `convertEphemeris.py`: planets use 54 data columns. -/
def planetsDataCols : ℕ := 54

/-- `__main__` of `convertEphemeris.py`: moon uses 6 data columns. -/
def moonDataCols : ℕ := 6

/-- `expected_cols = 1 + num_data_cols` for the planets file. -/
def planetsWidth : ℕ := 1 + planetsDataCols

/-- `expected_cols = 1 + num_data_cols` for the moon file. -/
def moonWidth : ℕ := 1 + moonDataCols

/-! ### Codec lemmas -/

theorem fromLEBytes_toLEBytes (w : ℕ) (h : w < 2 ^ 64) :
    fromLEBytes (toLEBytes w) = w := by
  simp only [toLEBytes, fromLEBytes, List.foldr]
  norm_num
  omega

theorem length_toLEBytes (w : ℕ) : (toLEBytes w).length = 8 := rfl

theorem length_encodeRow (r : List ℕ) : (encodeRow r).length = r.length * 8 := by
  induction r with
  | nil => simp [encodeRow]
  | cons a t ih =>
      have : encodeRow (a :: t) = toLEBytes a ++ encodeRow t := by simp [encodeRow]
      rw [this, List.length_append, length_toLEBytes, ih]
      simp [Nat.succ_mul, Nat.add_comm]

theorem length_encode (rows : List (List ℕ)) (W : ℕ)
    (hW : ∀ r ∈ rows, r.length = W) :
    (encode rows).length = rows.length * (W * 8) := by
  induction rows with
  | nil => simp [encode]
  | cons r rs ih =>
      have hr : r.length = W := hW r (List.mem_cons_self r rs)
      have ih' := ih (fun x hx => hW x (List.mem_cons_of_mem r hx))
      simp only [encode, List.map_cons, List.flatten_cons] at *
      rw [List.length_append, length_encodeRow, hr, ih']
      simp [Nat.succ_mul, Nat.add_comm]

theorem chunks_nil (k : ℕ) : chunks k ([] : List α) = [] := by
  rw [chunks]; simp

theorem chunks_append (k : ℕ) (hk : 0 < k) (a b : List α) (ha : a.length = k) :
    chunks k (a ++ b) = a :: chunks k b := by
  subst ha
  have hne : a.length ≠ 0 := Nat.pos_iff_ne_zero.mp hk
  have hlen : 0 < a.length := hk
  have hab : ¬((a ++ b).isEmpty = true) := by
    simp only [List.isEmpty_iff, List.append_eq_nil]
    rintro ⟨h1, -⟩
    rw [h1] at hlen
    simp at hlen
  rw [chunks, if_neg hne, dif_neg hab, List.take_left, List.drop_left]

theorem chunks8_encodeRow (r : List ℕ) :
    (chunks 8 (encodeRow r)).map fromLEBytes
      = r.map fun w => fromLEBytes (toLEBytes w) := by
  induction r with
  | nil => simp [encodeRow, chunks_nil]
  | cons a t ih =>
      have : encodeRow (a :: t) = toLEBytes a ++ encodeRow t := by
        simp [encodeRow]
      rw [this, chunks_append 8 (by norm_num) _ _ (length_toLEBytes a)]
      simp [ih]

theorem decodeRow_encodeRow (r : List ℕ) (h : ∀ v ∈ r, v < 2 ^ 64) :
    (chunks 8 (encodeRow r)).map fromLEBytes = r := by
  rw [chunks8_encodeRow]
  exact List.map_congr_left (fun v hv => fromLEBytes_toLEBytes v (h v hv)) |>.trans
    (List.map_id r)

theorem chunks_encode (rows : List (List ℕ)) (W : ℕ) (hWpos : 0 < W)
    (hW : ∀ r ∈ rows, r.length = W) :
    chunks (W * 8) (encode rows) = rows.map encodeRow := by
  induction rows with
  | nil => simp [encode, chunks_nil]
  | cons r rs ih =>
      have hr : (encodeRow r).length = W * 8 := by
        rw [length_encodeRow, hW r (List.mem_cons_self r rs)]
      have step : encode (r :: rs) = encodeRow r ++ encode rs := by
        simp [encode]
      rw [step, chunks_append (W * 8) (by positivity) _ _ hr,
        ih (fun x hx => hW x (List.mem_cons_of_mem r hx))]
      simp

/-- Full round-trip at the byte level. -/
theorem decode_encode (rows : List (List ℕ)) (W : ℕ) (hWpos : 0 < W)
    (hW : ∀ r ∈ rows, r.length = W)
    (hv : ∀ r ∈ rows, ∀ v ∈ r, v < 2 ^ 64) :
    decode W (encode rows) = some rows := by
  have hne : ¬W = 0 := Nat.pos_iff_ne_zero.mp hWpos
  have hlen := length_encode rows W hW
  have hmod : (encode rows).length % (W * 8) = 0 := by
    rw [hlen]; exact Nat.mul_mod_left _ _
  rw [decode]
  simp only [hne, if_false, hmod, ne_eq, not_true_eq_false, if_neg, if_false,
    not_false_iff]
  rw [chunks_encode rows W hWpos hW, List.map_map]
  congr 1
  refine List.map_congr_left (fun r hr => ?_) |>.trans (List.map_id rows)
  exact decodeRow_encodeRow r (hv r hr)

/-! ## Tolerant CSV loader (`verifyEphemerisSplit.py`, `load_file`)

A file is its list of data lines (the header has already been skipped by
`next(reader)`); each line is a list of tokens, each token the result of
`float()` on it (`none` = `ValueError`). -/

/-- `vals = [float(x) for x in row]`: the first `ValueError` aborts the
whole comprehension. -/
def parseVals : List (Option ℚ) → Option (List ℚ)
  | [] => some []
  | none :: _ => none
  | some v :: t => (parseVals t).map (v :: ·)

/-- One loop iteration of `load_file`: empty rows are skipped
(`if not row: continue`); a row is kept iff every token parses as a float
(`vals = [float(x) for x in row]` inside `try/except ValueError`).
No width check is performed. -/
def parseLine (r : List (Option ℚ)) : Option (List ℚ) :=
  if r.isEmpty then none else parseVals r

/-- `load_file`'s `data_rows` result (the `times` list is the heads). -/
def load_file (ls : List (List (Option ℚ))) : List (List ℚ) :=
  ls.filterMap parseLine

/-- `load_file`'s `times` result: `vals[0]` of each kept row. -/
def load_times (ls : List (List (Option ℚ))) : List ℚ :=
  (load_file ls).map (·.headI)

/-! ## Bracket search and interpolator (`verifyEphemerisSplit.py`,
`interpolate`) -/

/-- The manual bisection loop of `interpolate`:
`while high - low > 1: mid = (low+high)//2; if times[mid] <= target: low = mid
else: high = mid`. -/
def bracket (times : List ℚ) (target : ℚ) (low high : ℕ) : ℕ × ℕ :=
  if high - low > 1 then
    if times.getD ((low + high) / 2) 0 ≤ target then
      bracket times target ((low + high) / 2) high
    else bracket times target low ((low + high) / 2)
  else (low, high)
termination_by high - low
decreasing_by
  · omega
  · omega

/-- Lines 115–117 of `verifyEphemerisSplit.py`: `dRa = ra2 - ra1;
if dRa < -180: dRa += 360; if dRa > 180: dRa -= 360`. -/
def codeCircDelta (v1 v2 : ℚ) : ℚ :=
  let d := v2 - v1
  let d1 := if d < -180 then d + 360 else d
  if d1 > 180 then d1 - 360 else d1

/-- Lines 119–120: the single-pass normalization `if ra < 0: ra += 360;
if ra >= 360: ra -= 360`. -/
def onePassNorm (x : ℚ) : ℚ :=
  let y := if x < 0 then x + 360 else x
  if y ≥ 360 then y - 360 else y

/-- Lines 118–120: `ra = ra1 + dRa * frac` followed by the single-pass
normalization. -/
def circInterp (v1 v2 frac : ℚ) : ℚ :=
  onePassNorm (v1 + codeCircDelta v1 v2 * frac)

/-- Lines 122–123: plain linear interpolation for Dec and Dist. -/
def linInterp (v1 v2 frac : ℚ) : ℚ :=
  v1 + (v2 - v1) * frac

/-- `interpolate(target_jd, times, rows, col_offset)`: range check, bisect,
then circular interpolation of the RA column and linear interpolation of the
Dec and Dist columns. `none` models the `return None` (OutOfRange). -/
def interpolate (target : ℚ) (times : List ℚ) (rows : List (List ℚ))
    (off : ℕ) : Option (ℚ × ℚ × ℚ) :=
  if target < times.getD 0 0 ∨ target > times.getD (times.length - 1) 0 then
    none
  else
    let lh := bracket times target 0 (times.length - 1)
    let t1 := times.getD lh.1 0
    let t2 := times.getD lh.2 0
    let frac := (target - t1) / (t2 - t1)
    let row1 := rows.getD lh.1 []
    let row2 := rows.getD lh.2 []
    some (circInterp (row1.getD off 0) (row2.getD off 0) frac,
          linInterp (row1.getD (off + 1) 0) (row2.getD (off + 1) 0) frac,
          linInterp (row1.getD (off + 2) 0) (row2.getD (off + 2) 0) frac)

/-! ## Spec-side definitions (for refinement comparisons)

These two follow the spec's words, not the source, and exist only to be
compared against the code-derived definitions above. -/

/-- Python's `%` for a positive real modulus: `a - b * ⌊a / b⌋ ∈ [0, b)`. -/
def qmod (a b : ℚ) : ℚ := a - b * ⌊a / b⌋

/-- Modelled from the spec: `normalize0to360` maps any angle into
`[0, 360)`. -/
def normalize0to360 (x : ℚ) : ℚ := qmod x 360

/-- Modelled from the spec: the §4.5 formula
`d = ((v_high - v_low + 180) mod 360) - 180`. -/
def specCircDelta (vLow vHigh : ℚ) : ℚ := qmod (vHigh - vLow + 180) 360 - 180

/-! ## Shortest angular difference (`compare_with_horizons.py`) -/

/-- `angle_diff(a, b)`: `d = (a - b) % 360.0; if d > 180.0: d -= 360.0`. -/
def angle_diff (a b : ℚ) : ℚ :=
  let d := qmod (a - b) 360
  if d > 180 then d - 360 else d

/-! ## Planets generator (`generatePlanetsEphemeris.py`)

A CSV cell is modelled by the outcomes of the string operations the script
applies to it: `float(x.strip())` (`asFloat`, `none` = `ValueError`),
splitting into exactly three whitespace-separated floats (`asTriple`, used by
`hms_to_deg`/`dms_to_deg`, `none` when the split does not yield three parseable
parts), and whether the stripped text starts with `-` (`negSign`). Dict keys
(the `jd` strings) are modelled by their numeric values. -/

structure Tok where
  asFloat : Option ℚ
  asTriple : Option (ℚ × ℚ × ℚ)
  negSign : Bool
deriving DecidableEq, Inhabited

/-- `hms_to_deg`: `(h + m/60 + s/3600) * 15.0`, and `0.0` on any parse
failure (the function catches all exceptions). -/
def hms_to_deg (t : Tok) : ℚ :=
  match t.asTriple with
  | some (h, m, s) => (h + m / 60 + s / 3600) * 15
  | none => 0

/-- `dms_to_deg`: `sign * (abs(d) + m/60 + s/3600)` with the sign read off
the leading `-`, and `0.0` on any parse failure. -/
def dms_to_deg (t : Tok) : ℚ :=
  match t.asTriple with
  | some (d, m, s) => (if t.negSign then -1 else 1) * (|d| + m / 60 + s / 3600)
  | none => 0

/-- The value a `f"{x:.nf}"`-formatted cell denotes when read back as a
number: `x` rounded to `n` decimal places. (Python rounds ties to even on
the binary value; no claim here depends on tie behaviour.) -/
def roundDec (n : ℕ) (q : ℚ) : ℚ := (round (q * 10 ^ n) : ℚ) / 10 ^ n

/-- The Sun branch of `fetch_body_data`'s parse loop (lines 76–86, 100–105):
`float(jd)` must succeed, the line must have at least 6 fields, `g_dist`
must parse; RA/Dec come from `hms_to_deg`/`dms_to_deg`; the heliocentric
distance, longitude and latitude are hardcoded to `0.0`. The emitted record
is `[RA, Dec, GeoDist, HelioDist, HelioLon, HelioLat]`, each formatted with
6 or 8 decimals. -/
def parseSunLine (parts : List Tok) : Option (ℚ × List ℚ) :=
  match (parts.getD 0 default).asFloat with
  | none => none
  | some jd =>
      if parts.length < 6 then none
      else
        match (parts.getD 5 default).asFloat with
        | none => none
        | some gDist =>
            some (jd, [roundDec 6 (hms_to_deg (parts.getD 3 default)),
                       roundDec 6 (dms_to_deg (parts.getD 4 default)),
                       roundDec 8 gDist, roundDec 8 0, roundDec 6 0,
                       roundDec 6 0])

/-- The non-Sun branch of `fetch_body_data`'s parse loop (lines 88–105):
at least 10 fields; `h_lon`, `h_lat`, `h_dist`, `g_dist` parsed from columns
5, 6, 7, 9 (a `ValueError` skips the line). -/
def parsePlanetLine (parts : List Tok) : Option (ℚ × List ℚ) :=
  match (parts.getD 0 default).asFloat with
  | none => none
  | some jd =>
      if parts.length < 10 then none
      else
        match (parts.getD 5 default).asFloat, (parts.getD 6 default).asFloat,
              (parts.getD 7 default).asFloat, (parts.getD 9 default).asFloat with
        | some hLon, some hLat, some hDist, some gDist =>
            some (jd, [roundDec 6 (hms_to_deg (parts.getD 3 default)),
                       roundDec 6 (dms_to_deg (parts.getD 4 default)),
                       roundDec 8 gDist, roundDec 8 hDist, roundDec 6 hLon,
                       roundDec 6 hLat])
        | _, _, _, _ => none

/-- Python-dict insertion into an association list: overwriting an existing
key keeps its position, a new key goes to the end. -/
def dictInsert (k : ℚ) (v : List ℚ) : List (ℚ × List ℚ) → List (ℚ × List ℚ)
  | [] => [(k, v)]
  | (k', v') :: t => if k' = k then (k, v) :: t else (k', v') :: dictInsert k v t

/-- Dict lookup (`jd in bd` / `bd[jd]`). -/
def dictFind (k : ℚ) : List (ℚ × List ℚ) → Option (List ℚ)
  | [] => none
  | (k', v) :: t => if k' = k then some v else dictFind k t

/-- One iteration of `fetch_body_data`'s parse loop: a line that parses is
inserted into the dict (`parsed_data[jd] = [...]`), a failing one is
skipped. -/
def parseBodyStep (isSun : Bool) (acc : List (ℚ × List ℚ)) (l : List Tok) :
    List (ℚ × List ℚ) :=
  match (if isSun then parseSunLine l else parsePlanetLine l) with
  | none => acc
  | some (jd, vals) => dictInsert jd vals acc

/-- `fetch_body_data`'s `parsed_data` dict: fold the per-line parser over the
`$$SOE`/`$$EOE` data lines. -/
def parseBody (isSun : Bool) (lines : List (List Tok)) : List (ℚ × List ℚ) :=
  lines.foldl (parseBodyStep isSun) []

/-- `main` of `generatePlanetsEphemeris.py`, lines 121–139: take the first
body's timestamps, sort them numerically, and for each timestamp emit
`[jd] ++ 6 fields per body` iff every body's dict contains it. -/
def mergeEphemeris (allData : List (List (ℚ × List ℚ))) : List (List ℚ) :=
  match allData with
  | [] => []
  | d0 :: _ =>
      ((d0.map Prod.fst).mergeSort).filterMap fun jd =>
        if allData.all fun bd => (dictFind jd bd).isSome then
          some (jd :: (allData.map fun bd => (dictFind jd bd).getD []).flatten)
        else none

/-! ## Modular-arithmetic lemmas for `qmod` -/

theorem qmod360_eq (x : ℚ) (k : ℤ) (h1 : 360 * k ≤ x) (h2 : x < 360 * (k + 1)) :
    qmod x 360 = x - 360 * k := by
  unfold qmod
  have hfl : ⌊x / 360⌋ = k := by
    rw [Int.floor_eq_iff]
    constructor
    · rw [le_div_iff₀ (by norm_num : (0 : ℚ) < 360)]
      linarith
    · rw [div_lt_iff₀ (by norm_num : (0 : ℚ) < 360)]
      push_cast
      linarith
  rw [hfl]

theorem qmod360_nonneg (x : ℚ) : 0 ≤ qmod x 360 := by
  unfold qmod
  have h := Int.floor_le (x / 360)
  rw [le_div_iff₀ (by norm_num : (0 : ℚ) < 360)] at h
  linarith

theorem qmod360_lt (x : ℚ) : qmod x 360 < 360 := by
  unfold qmod
  have h := Int.lt_floor_add_one (x / 360)
  rw [div_lt_iff₀ (by norm_num : (0 : ℚ) < 360)] at h
  linarith

theorem qmod360_sub_int (x : ℚ) : ∃ k : ℤ, qmod x 360 = x - 360 * k :=
  ⟨⌊x / 360⌋, rfl⟩

theorem normalize0to360_eq_self (x : ℚ) (h1 : 0 ≤ x) (h2 : x < 360) :
    normalize0to360 x = x := by
  unfold normalize0to360
  have := qmod360_eq x 0 (by push_cast; linarith) (by push_cast; linarith)
  simpa using this

/-! ## Lemmas about the circular-delta and normalization steps -/

theorem codeCircDelta_cases (v1 v2 : ℚ) :
    codeCircDelta v1 v2 = v2 - v1 ∨ codeCircDelta v1 v2 = v2 - v1 + 360 ∨
      codeCircDelta v1 v2 = v2 - v1 - 360 := by
  simp only [codeCircDelta]
  split_ifs with h1 h2 h3
  · left
    ring
  · right
    left
    ring
  · right
    right
    ring
  · left
    ring

theorem codeCircDelta_eq_spec (v1 v2 : ℚ) (hlo : -360 < v2 - v1)
    (hhi : v2 - v1 < 360) (hne : v2 - v1 ≠ 180) :
    codeCircDelta v1 v2 = specCircDelta v1 v2 := by
  simp only [codeCircDelta, specCircDelta]
  rcases lt_or_le (v2 - v1) (-180) with hc | hc
  · rw [qmod360_eq (v2 - v1 + 180) (-1) (by push_cast; linarith)
      (by push_cast; linarith)]
    split_ifs <;> push_cast <;> linarith
  · rcases lt_or_le (180 : ℚ) (v2 - v1) with hc' | hc'
    · rw [qmod360_eq (v2 - v1 + 180) 1 (by push_cast; linarith)
        (by push_cast; linarith)]
      split_ifs <;> push_cast <;> linarith
    · have hc'' : v2 - v1 < 180 := lt_of_le_of_ne hc' hne
      rw [qmod360_eq (v2 - v1 + 180) 0 (by push_cast; linarith)
        (by push_cast; linarith)]
      split_ifs <;> push_cast <;> linarith

theorem specCircDelta_mem_Ico (v1 v2 : ℚ) :
    -180 ≤ specCircDelta v1 v2 ∧ specCircDelta v1 v2 < 180 := by
  unfold specCircDelta
  have h1 := qmod360_nonneg (v2 - v1 + 180)
  have h2 := qmod360_lt (v2 - v1 + 180)
  constructor <;> linarith

theorem onePassNorm_eq_normalize (x : ℚ) (h1 : -360 ≤ x) (h2 : x < 720) :
    onePassNorm x = normalize0to360 x := by
  simp only [onePassNorm, normalize0to360]
  rcases lt_or_le x 0 with h | h
  · rw [qmod360_eq x (-1) (by push_cast; linarith) (by push_cast; linarith)]
    split_ifs <;> push_cast <;> linarith
  · rcases lt_or_le x 360 with h' | h'
    · rw [qmod360_eq x 0 (by push_cast; linarith) (by push_cast; linarith)]
      split_ifs <;> push_cast <;> linarith
    · rw [qmod360_eq x 1 (by push_cast; linarith) (by push_cast; linarith)]
      split_ifs <;> push_cast <;> linarith

theorem circInterp_frac_zero (v1 v2 : ℚ) (h1 : 0 ≤ v1) (h2 : v1 < 360) :
    circInterp v1 v2 0 = v1 := by
  simp only [circInterp, onePassNorm, mul_zero, add_zero]
  split_ifs <;> linarith

theorem circInterp_frac_one (v1 v2 : ℚ) (h1 : 0 ≤ v1) (h2 : v1 < 360)
    (h3 : 0 ≤ v2) (h4 : v2 < 360) : circInterp v1 v2 1 = v2 := by
  simp only [circInterp, onePassNorm, mul_one]
  rcases codeCircDelta_cases v1 v2 with h | h | h <;> rw [h] <;> split_ifs <;>
    linarith

theorem linInterp_frac_zero (v1 v2 : ℚ) : linInterp v1 v2 0 = v1 := by
  unfold linInterp
  ring

theorem linInterp_frac_one (v1 v2 : ℚ) : linInterp v1 v2 1 = v2 := by
  unfold linInterp
  ring

/-! ## Bracket-search lemmas -/

theorem getD_lt_of_sorted (l : List ℚ) (h : List.Sorted (· < ·) l) {a b : ℕ}
    (hab : a < b) (hb : b < l.length) : l.getD a 0 < l.getD b 0 := by
  rw [List.getD_eq_getElem l 0 (Nat.lt_trans hab hb), List.getD_eq_getElem l 0 hb]
  have := h.rel_get_of_lt (a := ⟨a, Nat.lt_trans hab hb⟩) (b := ⟨b, hb⟩)
    (Fin.mk_lt_mk.mpr hab)
  simpa using this

/-- Loop invariant of the bisection: starting from a window whose endpoints
already bracket the target, the loop returns adjacent indices inside the
window that still bracket it. No sortedness is needed for this much. -/
theorem bracket_spec (times : List ℚ) (target : ℚ) :
    ∀ low high, low < high → high < times.length →
      times.getD low 0 ≤ target → target ≤ times.getD high 0 →
      (bracket times target low high).2 = (bracket times target low high).1 + 1 ∧
      low ≤ (bracket times target low high).1 ∧
      (bracket times target low high).2 ≤ high ∧
      times.getD (bracket times target low high).1 0 ≤ target ∧
      target ≤ times.getD (bracket times target low high).2 0 := by
  intro low high
  induction low, high using bracket.induct times target with
  | case1 low high hgt hc ih =>
      intro hlh hhi h1 h2
      rw [bracket, if_pos hgt, if_pos hc]
      have hmid : low ≤ (low + high) / 2 ∧ (low + high) / 2 < high := by omega
      obtain ⟨e1, e2, e3, e4, e5⟩ := ih hmid.2 hhi hc h2
      exact ⟨e1, le_trans hmid.1 e2, e3, e4, e5⟩
  | case2 low high hgt hc ih =>
      intro hlh hhi h1 h2
      rw [bracket, if_pos hgt, if_neg hc]
      have hmid : low < (low + high) / 2 ∧ (low + high) / 2 < high := by omega
      obtain ⟨e1, e2, e3, e4, e5⟩ :=
        ih hmid.1 (Nat.lt_trans hmid.2 hhi) h1 (le_of_lt (not_le.mp hc))
      exact ⟨e1, e2, le_trans e3 (le_of_lt hmid.2), e4, e5⟩
  | case3 low high hgt =>
      intro hlh hhi h1 h2
      rw [bracket, if_neg hgt]
      exact ⟨by omega, le_refl _, le_refl _, h1, h2⟩

/-- On an exact timestamp match the interpolator reproduces the stored row:
the bracket is adjacent (`frac` evaluates to `0` or `1`), and the circular
and linear steps return the row's values unchanged (RA values assumed
normalized to `[0, 360)`, as the generator guarantees). -/
theorem interpolate_exact (times : List ℚ) (rows : List (List ℚ)) (off i : ℕ)
    (hsort : List.Sorted (· < ·) times)
    (h2n : 2 ≤ times.length)
    (hi : i < times.length)
    (hra : ∀ j, j < times.length →
      0 ≤ (rows.getD j []).getD off 0 ∧ (rows.getD j []).getD off 0 < 360) :
    interpolate (times.getD i 0) times rows off =
      some ((rows.getD i []).getD off 0,
            (rows.getD i []).getD (off + 1) 0,
            (rows.getD i []).getD (off + 2) 0) := by
  have hn : 0 < times.length := by omega
  have hlast : times.length - 1 < times.length := by omega
  have h0le : times.getD 0 0 ≤ times.getD i 0 := by
    rcases Nat.eq_zero_or_pos i with h | h
    · rw [h]
    · exact le_of_lt (getD_lt_of_sorted times hsort h hi)
  have hlastge : times.getD i 0 ≤ times.getD (times.length - 1) 0 := by
    rcases eq_or_lt_of_le (Nat.le_sub_one_of_lt hi) with h | h
    · rw [h]
    · exact le_of_lt (getD_lt_of_sorted times hsort h hlast)
  have hcond : ¬(times.getD i 0 < times.getD 0 0 ∨
      times.getD i 0 > times.getD (times.length - 1) 0) := by
    push_neg
    exact ⟨h0le, hlastge⟩
  obtain ⟨l, h, hbr⟩ : ∃ p q,
      bracket times (times.getD i 0) 0 (times.length - 1) = (p, q) := ⟨_, _, rfl⟩
  obtain ⟨e1, e2, e3, e4, e5⟩ :=
    bracket_spec times (times.getD i 0) 0 (times.length - 1) (by omega) hlast
      h0le hlastge
  rw [hbr] at e1 e2 e3 e4 e5
  dsimp only at e1 e2 e3 e4 e5
  have hhlen : h < times.length := by omega
  have hllen : l < times.length := by omega
  have hil : l ≤ i := by
    by_contra hcon
    push_neg at hcon
    exact absurd e4 (not_le.mpr (getD_lt_of_sorted times hsort hcon hllen))
  have hih : i ≤ h := by
    by_contra hcon
    push_neg at hcon
    exact absurd e5 (not_le.mpr (getD_lt_of_sorted times hsort hcon hi))
  simp only [interpolate, if_neg hcond, hbr]
  rcases eq_or_lt_of_le hil with hl | hl
  · -- `i = l`: `frac = 0`
    subst hl
    rw [sub_self, zero_div,
      circInterp_frac_zero _ _ (hra l hllen).1 (hra l hllen).2,
      linInterp_frac_zero, linInterp_frac_zero]
  · -- `l < i ≤ h = l + 1`: `i = h`, `frac = 1`
    have hieq : i = h := by omega
    subst hieq
    have htlt : times.getD l 0 < times.getD i 0 :=
      getD_lt_of_sorted times hsort hl hi
    rw [div_self (by linarith : times.getD i 0 - times.getD l 0 ≠ 0),
      circInterp_frac_one _ _ (hra l hllen).1 (hra l hllen).2
        (hra i hi).1 (hra i hi).2,
      linInterp_frac_one, linInterp_frac_one]

/-! ## Loader lemmas -/

theorem parseVals_eq_none_of_mem (r : List (Option ℚ)) (h : none ∈ r) :
    parseVals r = none := by
  induction r with
  | nil => simp at h
  | cons a t ih =>
      cases a with
      | none => rfl
      | some v =>
          have ht : none ∈ t := by
            rcases List.mem_cons.mp h with h' | h'
            · exact absurd h' (by simp)
            · exact h'
          simp [parseVals, ih ht]

theorem parseVals_map_some (vs : List ℚ) : parseVals (vs.map some) = some vs := by
  induction vs with
  | nil => rfl
  | cons v t ih => simp [parseVals, ih]

theorem parseLine_eq_none_of_mem (r : List (Option ℚ)) (h : none ∈ r) :
    parseLine r = none := by
  unfold parseLine
  rw [parseVals_eq_none_of_mem r h]
  simp

theorem parseLine_map_some (vs : List ℚ) (h : vs ≠ []) :
    parseLine (vs.map some) = some vs := by
  unfold parseLine
  rw [if_neg (by simpa using h), parseVals_map_some]

theorem load_file_drop_bad (a b : List (List (Option ℚ)))
    (bad : List (Option ℚ)) (hbad : none ∈ bad) :
    load_file (a ++ bad :: b) = load_file a ++ load_file b := by
  unfold load_file
  rw [List.filterMap_append, List.filterMap_cons, parseLine_eq_none_of_mem bad hbad]

theorem load_file_all_good (ls : List (List ℚ)) (h : ∀ r ∈ ls, r ≠ []) :
    load_file (ls.map (List.map some)) = ls := by
  induction ls with
  | nil => rfl
  | cons r t ih =>
      unfold load_file at *
      rw [List.map_cons, List.filterMap_cons,
        parseLine_map_some r (h r (List.mem_cons_self r t)),
        ih (fun x hx => h x (List.mem_cons_of_mem r hx))]

/-! ## Generator lemmas -/

theorem roundDec_zero (n : ℕ) : roundDec n 0 = 0 := by
  simp [roundDec]

theorem parseSunLine_fields (parts : List Tok) (jd : ℚ) (vals : List ℚ)
    (h : parseSunLine parts = some (jd, vals)) :
    vals.length = 6 ∧ vals.getD 3 0 = 0 ∧ vals.getD 4 0 = 0 ∧
      vals.getD 5 0 = 0 := by
  unfold parseSunLine at h
  split at h
  · exact absurd h (by simp)
  · split at h
    · exact absurd h (by simp)
    · split at h
      · exact absurd h (by simp)
      · rw [Option.some_inj, Prod.mk.injEq] at h
        rw [← h.2]
        refine ⟨rfl, ?_, ?_, ?_⟩ <;> simp [roundDec_zero]

theorem parsePlanetLine_length (parts : List Tok) (jd : ℚ) (vals : List ℚ)
    (h : parsePlanetLine parts = some (jd, vals)) : vals.length = 6 := by
  unfold parsePlanetLine at h
  split at h
  · exact absurd h (by simp)
  · split at h
    · exact absurd h (by simp)
    · split at h
      · rw [Option.some_inj, Prod.mk.injEq] at h
        rw [← h.2]
        rfl
      · exact absurd h (by simp)

theorem mem_dictInsert (kv : ℚ × List ℚ) (k : ℚ) (v : List ℚ)
    (d : List (ℚ × List ℚ)) (h : kv ∈ dictInsert k v d) :
    kv = (k, v) ∨ kv ∈ d := by
  induction d with
  | nil => simpa [dictInsert] using h
  | cons p t ih =>
      unfold dictInsert at h
      split at h
      · rcases List.mem_cons.mp h with h' | h'
        · exact Or.inl h'
        · exact Or.inr (List.mem_cons_of_mem p h')
      · rcases List.mem_cons.mp h with h' | h'
        · exact Or.inr (h' ▸ List.mem_cons_self p t)
        · rcases ih h' with h'' | h''
          · exact Or.inl h''
          · exact Or.inr (List.mem_cons_of_mem p h'')

theorem parseBodyStep_mem (isSun : Bool) (acc : List (ℚ × List ℚ))
    (l : List Tok) (kv : ℚ × List ℚ) (h : kv ∈ parseBodyStep isSun acc l) :
    (if isSun then parseSunLine l else parsePlanetLine l) = some kv ∨
      kv ∈ acc := by
  unfold parseBodyStep at h
  split at h
  · exact Or.inr h
  · rename_i jd vals heq
    rcases mem_dictInsert kv jd vals acc h with h' | h'
    · exact Or.inl (h' ▸ heq)
    · exact Or.inr h'

theorem parseBody_mem (isSun : Bool) (lines : List (List Tok))
    (kv : ℚ × List ℚ) (h : kv ∈ parseBody isSun lines) :
    ∃ parts,
      (if isSun then parseSunLine parts else parsePlanetLine parts) = some kv := by
  suffices H : ∀ acc : List (ℚ × List ℚ),
      (∀ kv' ∈ acc, ∃ parts,
        (if isSun then parseSunLine parts else parsePlanetLine parts) = some kv') →
      ∀ kv' ∈ lines.foldl (parseBodyStep isSun) acc,
        ∃ parts,
          (if isSun then parseSunLine parts else parsePlanetLine parts) = some kv' by
    exact H [] (by simp) kv h
  clear h kv
  induction lines with
  | nil =>
      intro acc hacc kv' h'
      exact hacc kv' h'
  | cons l t ih =>
      intro acc hacc kv' h'
      rw [List.foldl_cons] at h'
      refine ih (parseBodyStep isSun acc l) ?_ kv' h'
      intro kv'' hkv''
      rcases parseBodyStep_mem isSun acc l kv'' hkv'' with h'' | h''
      · exact ⟨l, h''⟩
      · exact hacc kv'' h''

/-- Every record in a per-body dict has exactly the 6 unified output
fields. -/
theorem parseBody_record_length (isSun : Bool) (lines : List (List Tok)) :
    ∀ kv ∈ parseBody isSun lines, (kv.2 : List ℚ).length = 6 := by
  intro kv h
  obtain ⟨parts, hp⟩ := parseBody_mem isSun lines kv h
  rcases kv with ⟨jd, vals⟩
  cases isSun with
  | true =>
      rw [if_pos rfl] at hp
      exact (parseSunLine_fields parts jd vals hp).1
  | false =>
      rw [if_neg (by simp)] at hp
      exact parsePlanetLine_length parts jd vals hp

theorem dictFind_mem (k : ℚ) (d : List (ℚ × List ℚ)) (v : List ℚ)
    (h : dictFind k d = some v) : (k, v) ∈ d := by
  induction d with
  | nil => simp [dictFind] at h
  | cons p t ih =>
      unfold dictFind at h
      split at h
      · rename_i heq
        rw [Option.some_inj] at h
        exact heq ▸ h ▸ List.mem_cons_self p t
      · exact List.mem_cons_of_mem p (ih h)

theorem mem_mergeEphemeris (d0 : List (ℚ × List ℚ))
    (rest : List (List (ℚ × List ℚ))) (row : List ℚ)
    (h : row ∈ mergeEphemeris (d0 :: rest)) :
    ∃ jd : ℚ,
      ((d0 :: rest).all fun bd => (dictFind jd bd).isSome) ∧
      row = jd :: ((d0 :: rest).map fun bd => (dictFind jd bd).getD []).flatten := by
  unfold mergeEphemeris at h
  rcases List.mem_filterMap.mp h with ⟨jd, _, hjd⟩
  refine ⟨jd, ?_, ?_⟩
  · by_contra hcon
    rw [if_neg (by simpa using hcon)] at hjd
    exact Option.noConfusion hjd
  · split at hjd
    · exact (Option.some_inj.mp hjd).symm
    · exact Option.noConfusion hjd

theorem length_flatten_const {α : Type _} (L : List α) (f : α → List ℚ) (k : ℕ)
    (h : ∀ x ∈ L, (f x).length = k) :
    ((L.map f).flatten).length = L.length * k := by
  induction L with
  | nil => simp
  | cons x t ih =>
      rw [List.map_cons, List.flatten_cons, List.length_append,
        h x (List.mem_cons_self x t),
        ih (fun y hy => h y (List.mem_cons_of_mem x hy))]
      simp [Nat.succ_mul, Nat.add_comm]

theorem map_headI_filterMap (l : List ℚ) (cond : ℚ → Bool) (g : ℚ → List ℚ) :
    ((l.filterMap fun jd =>
        if cond jd then some (jd :: g jd) else none).map (·.headI))
      = l.filter cond := by
  induction l with
  | nil => rfl
  | cons x t ih =>
      rw [List.filterMap_cons, List.filter_cons]
      by_cases hx : cond x
      · simp only [hx, if_true, List.map_cons, ih, List.headI_cons]
      · simp only [hx, if_false, ih, Bool.false_eq_true]

/-! ## Claim theorems -/

/-- Claim C1: for every valid Dataset (every row of width `W`, every value a
64-bit pattern) encoding then decoding with the same schema width recovers
the dataset exactly, bit for bit. The decoder is modelled from the spec
(§4.3), since the binary reader lives in the Android app outside
`scripts/`. -/
theorem C1_decode_encode_roundtrip (rows : List (List ℕ)) (W : ℕ)
    (hWpos : 0 < W) (hW : ∀ r ∈ rows, r.length = W)
    (hv : ∀ r ∈ rows, ∀ v ∈ r, v < 2 ^ 64) :
    decode W (encode rows) = some rows :=
  decode_encode rows W hWpos hW hv

theorem C1_decode_encode_roundtrip_witness :
    decode 2 (encode [[1, 2], [3, 4]]) = some [[1, 2], [3, 4]] :=
  C1_decode_encode_roundtrip [[1, 2], [3, 4]] 2 (by norm_num)
    (by intro r hr; fin_cases hr <;> rfl)
    (by intro r hr v hv; fin_cases hr <;> fin_cases hv <;> norm_num)

/-- Claim C7: the encoder emits exactly `N` fixed-size records back to back,
each record the `W` column values as 64-bit little-endian patterns, with no
header or length prefix, so the output is exactly `N * W * 8` bytes; the
planets dataset uses `W = 55` and the moon dataset `W = 7`. -/
theorem C7_binary_layout (rows : List (List ℕ)) (W : ℕ)
    (hW : ∀ r ∈ rows, r.length = W) :
    encode rows = (rows.map encodeRow).flatten ∧
    (∀ r ∈ rows, encodeRow r = (r.map toLEBytes).flatten ∧
      (encodeRow r).length = W * 8) ∧
    (encode rows).length = rows.length * (W * 8) ∧
    planetsWidth = 55 ∧ moonWidth = 7 :=
  ⟨rfl, fun r hr => ⟨rfl, by rw [length_encodeRow, hW r hr]⟩,
    length_encode rows W hW, rfl, rfl⟩

theorem C7_binary_layout_witness :
    encode [[5, 6, 7]] = (([[5, 6, 7]] : List (List ℕ)).map encodeRow).flatten ∧
    (∀ r ∈ [[5, 6, 7]], encodeRow r = (r.map toLEBytes).flatten ∧
      (encodeRow r).length = 3 * 8) ∧
    (encode [[5, 6, 7]]).length = 1 * (3 * 8) ∧
    planetsWidth = 55 ∧ moonWidth = 7 := by
  have h := C7_binary_layout [[5, 6, 7]] 3 (by intro r hr; fin_cases hr <;> rfl)
  exact ⟨h.1, h.2.1, h.2.2.1, h.2.2.2.1, h.2.2.2.2⟩

/-- Claim C3: for a non-empty sorted dataset, a target Julian Date below the
first or above the last stored timestamp makes `interpolate` return `None`
(out of range); it never extrapolates. -/
theorem C3_out_of_range (times : List ℚ) (rows : List (List ℚ)) (off : ℕ)
    (target : ℚ) (hne : times ≠ [])
    (hsort : List.Sorted (· < ·) times)
    (hout : target < times.getD 0 0 ∨
      target > times.getD (times.length - 1) 0) :
    interpolate target times rows off = none := by
  unfold interpolate
  rw [if_pos hout]

theorem C3_out_of_range_witness :
    interpolate 2 [0, 1] [[0, 5], [1, 6]] 1 = none :=
  C3_out_of_range [0, 1] [[0, 5], [1, 6]] 1 2 (by simp)
    (by norm_num [List.sorted_cons])
    (Or.inr (by norm_num [List.getD]))

/-- Claim C4: for a dataset of at least two rows sorted strictly ascending
and a target strictly between the first and last timestamps, the bisection
returns `low < high = low + 1` with
`times[low] ≤ target ≤ times[high]`. -/
theorem C4_monotonic_bracketing (times : List ℚ) (target : ℚ)
    (h2 : 2 ≤ times.length) (hsort : List.Sorted (· < ·) times)
    (hlo : times.getD 0 0 < target)
    (hhi : target < times.getD (times.length - 1) 0) :
    (bracket times target 0 (times.length - 1)).1 <
      (bracket times target 0 (times.length - 1)).2 ∧
    (bracket times target 0 (times.length - 1)).2 =
      (bracket times target 0 (times.length - 1)).1 + 1 ∧
    times.getD (bracket times target 0 (times.length - 1)).1 0 ≤ target ∧
    target ≤ times.getD (bracket times target 0 (times.length - 1)).2 0 := by
  obtain ⟨e1, e2, e3, e4, e5⟩ := bracket_spec times target 0 (times.length - 1)
    (by omega) (by omega) (le_of_lt hlo) (le_of_lt hhi)
  exact ⟨by omega, e1, e4, e5⟩

theorem C4_monotonic_bracketing_witness :
    (bracket [0, 1, 2] (1 / 2) 0 2).1 < (bracket [0, 1, 2] (1 / 2) 0 2).2 ∧
    (bracket [0, 1, 2] (1 / 2) 0 2).2 = (bracket [0, 1, 2] (1 / 2) 0 2).1 + 1 ∧
    ([0, 1, 2] : List ℚ).getD (bracket [0, 1, 2] (1 / 2) 0 2).1 0 ≤ 1 / 2 ∧
    (1 / 2 : ℚ) ≤ ([0, 1, 2] : List ℚ).getD (bracket [0, 1, 2] (1 / 2) 0 2).2 0 :=
  C4_monotonic_bracketing [0, 1, 2] (1 / 2) (by norm_num)
    (by norm_num [List.sorted_cons]) (by norm_num [List.getD])
    (by norm_num [List.getD])

/-- Claim C2, counterexample: the claim says an exact timestamp match makes
the bracket return the degenerate pair `low = high = i`. On the dataset
`[0, 1, 2]` with target `1 = times[1]` the bisection returns `(1, 2)`, an
adjacent (non-degenerate) pair, so no `low = high` result is produced and
the interpolation arithmetic (including the division by `t2 - t1`) still
runs. -/
theorem C2_no_degenerate_pair_counterexample :
    bracket [0, 1, 2] 1 0 2 = (1, 2) ∧ ((1, 2) : ℕ × ℕ).1 ≠ ((1, 2) : ℕ × ℕ).2 := by
  constructor
  · rw [bracket]
    norm_num
    rw [bracket]
    norm_num
  · norm_num

/-- Claim C2, amended: on a dataset of at least two strictly ascending
timestamps, a target equal to the stored `times[i]` makes the bisection
return an adjacent pair `high = low + 1` (never a degenerate `low = high`),
the fraction evaluates to `0` or `1`, and the interpolator returns row `i`'s
fields exactly (RA values assumed in `[0, 360)`); the division by
`t2 - t1` still happens but its denominator is nonzero. -/
theorem C2_exact_match_amended (times : List ℚ) (rows : List (List ℚ))
    (off i : ℕ) (hsort : List.Sorted (· < ·) times)
    (h2n : 2 ≤ times.length) (hi : i < times.length)
    (hra : ∀ j, j < times.length →
      0 ≤ (rows.getD j []).getD off 0 ∧ (rows.getD j []).getD off 0 < 360) :
    (bracket times (times.getD i 0) 0 (times.length - 1)).2 =
      (bracket times (times.getD i 0) 0 (times.length - 1)).1 + 1 ∧
    interpolate (times.getD i 0) times rows off =
      some ((rows.getD i []).getD off 0,
            (rows.getD i []).getD (off + 1) 0,
            (rows.getD i []).getD (off + 2) 0) := by
  constructor
  · have h0le : times.getD 0 0 ≤ times.getD i 0 := by
      rcases Nat.eq_zero_or_pos i with h | h
      · rw [h]
      · exact le_of_lt (getD_lt_of_sorted times hsort h hi)
    have hlastge : times.getD i 0 ≤ times.getD (times.length - 1) 0 := by
      rcases eq_or_lt_of_le (Nat.le_sub_one_of_lt hi) with h | h
      · rw [h]
      · exact le_of_lt (getD_lt_of_sorted times hsort h (by omega))
    exact (bracket_spec times (times.getD i 0) 0 (times.length - 1) (by omega)
      (by omega) h0le hlastge).1
  · exact interpolate_exact times rows off i hsort h2n hi hra

theorem C2_exact_match_amended_witness :
    (bracket [0, 1, 2] (([0, 1, 2] : List ℚ).getD 1 0) 0 2).2 =
      (bracket [0, 1, 2] (([0, 1, 2] : List ℚ).getD 1 0) 0 2).1 + 1 ∧
    interpolate (([0, 1, 2] : List ℚ).getD 1 0) [0, 1, 2]
        [[0, 10, 20, 30], [1, 11, 21, 31], [2, 12, 22, 32]] 1 =
      some ((([[0, 10, 20, 30], [1, 11, 21, 31], [2, 12, 22, 32]] :
          List (List ℚ)).getD 1 []).getD 1 0,
        (([[0, 10, 20, 30], [1, 11, 21, 31], [2, 12, 22, 32]] :
          List (List ℚ)).getD 1 []).getD 2 0,
        (([[0, 10, 20, 30], [1, 11, 21, 31], [2, 12, 22, 32]] :
          List (List ℚ)).getD 1 []).getD 3 0) :=
  C2_exact_match_amended [0, 1, 2]
    [[0, 10, 20, 30], [1, 11, 21, 31], [2, 12, 22, 32]] 1 1
    (by norm_num [List.sorted_cons]) (by norm_num) (by norm_num)
    (by
      intro j hj
      simp only [List.length_cons, List.length_nil] at hj
      interval_cases j <;> norm_num [List.getD])

/-- Claim C5, counterexample: the claim's formula
`d = ((v_high - v_low + 180) mod 360) - 180` disagrees with the code at the
antipodal tie. With endpoints `0°` and `180°` at `frac = 1/2` the code's
conditional adjustment keeps `d = +180` and returns `90°`, while the claimed
formula gives `d = -180` and `normalize0to360(0 + (-180)·½) = 270°`. (The
claim's stated range `(-180, 180]` also contradicts its own formula, whose
range is `[-180, 180)`.) -/
theorem C5_antipodal_counterexample :
    circInterp 0 180 (1 / 2) = 90 ∧
    normalize0to360 (0 + specCircDelta 0 180 * (1 / 2)) = 270 ∧
    (90 : ℚ) ≠ 270 := by
  refine ⟨?_, ?_, by norm_num⟩
  · norm_num [circInterp, codeCircDelta, onePassNorm]
  · norm_num [normalize0to360, specCircDelta, qmod]

/-- Claim C5, amended: for normalized endpoints in `[0, 360)` whose raw
difference is not exactly `180`, the code's conditional delta equals the
spec formula `((v_high - v_low + 180) mod 360) - 180`, which lies in
`[-180, 180)` (not `(-180, 180]` as the spec's range annotation says), and
the interpolated value is `normalize0to360(v_low + d · frac)`; the concrete
cases hold: endpoints `359°, 1°` at `frac = ½` give `0°`, and endpoints
`350°, 370°` at `frac = ½` give the same `0°`. -/
theorem C5_circular_amended :
    (∀ v1 v2 frac : ℚ, 0 ≤ v1 → v1 < 360 → 0 ≤ v2 → v2 < 360 →
      v2 - v1 ≠ 180 → 0 ≤ frac → frac ≤ 1 →
      codeCircDelta v1 v2 = specCircDelta v1 v2 ∧
      -180 ≤ specCircDelta v1 v2 ∧ specCircDelta v1 v2 < 180 ∧
      circInterp v1 v2 frac =
        normalize0to360 (v1 + specCircDelta v1 v2 * frac)) ∧
    circInterp 359 1 (1 / 2) = 0 ∧ circInterp 350 370 (1 / 2) = 0 := by
  refine ⟨?_, ?_, ?_⟩
  · intro v1 v2 frac h1 h2 h3 h4 hne hf0 hf1
    have hdelta := codeCircDelta_eq_spec v1 v2 (by linarith) (by linarith) hne
    obtain ⟨hdlo, hdhi⟩ := specCircDelta_mem_Ico v1 v2
    refine ⟨hdelta, hdlo, hdhi, ?_⟩
    have hub : specCircDelta v1 v2 * frac < 180 := by nlinarith
    have hlb : -180 ≤ specCircDelta v1 v2 * frac := by nlinarith
    rw [circInterp, hdelta]
    exact onePassNorm_eq_normalize _ (by linarith) (by linarith)
  · norm_num [circInterp, codeCircDelta, onePassNorm]
  · norm_num [circInterp, codeCircDelta, onePassNorm]

theorem C5_circular_amended_witness :
    codeCircDelta 10 30 = specCircDelta 10 30 ∧
    -180 ≤ specCircDelta 10 30 ∧ specCircDelta 10 30 < 180 ∧
    circInterp 10 30 (1 / 2) =
      normalize0to360 (10 + specCircDelta 10 30 * (1 / 2)) :=
  C5_circular_amended.1 10 30 (1 / 2) (by norm_num) (by norm_num)
    (by norm_num) (by norm_num) (by norm_num) (by norm_num) (by norm_num)

/-- Claim C6, counterexample: the claim says a line with fewer than `W`
tokens is omitted. With `W = 3`, a middle line of two tokens that both parse
as floats is KEPT by the loader (which never checks the token count), so the
loaded dataset is not the claimed one with that line omitted. -/
theorem C6_short_line_kept_counterexample :
    load_file [[some 1, some 2, some 3], [some 4, some 5],
        [some 6, some 7, some 8]] =
      [[1, 2, 3], [4, 5], [6, 7, 8]] ∧
    ([[1, 2, 3], [4, 5], [6, 7, 8]] : List (List ℚ)) ≠
      [[1, 2, 3], [6, 7, 8]] := by
  constructor
  · norm_num [load_file, parseLine, parseVals, List.filterMap_cons]
  · simp

/-- Claim C6, amended: a line containing a token on which `float()` fails is
skipped silently (the remaining rows load unchanged and in order), but the
loader performs no width check: a line all of whose tokens parse as floats
is kept even when it has fewer than `W` tokens. -/
theorem C6_loader_amended :
    (∀ a b : List (List (Option ℚ)), ∀ bad : List (Option ℚ), none ∈ bad →
      load_file (a ++ bad :: b) = load_file a ++ load_file b) ∧
    (∀ ls : List (List ℚ), (∀ r ∈ ls, r ≠ []) →
      load_file (ls.map (List.map some)) = ls) :=
  ⟨load_file_drop_bad, load_file_all_good⟩

theorem C6_loader_amended_witness :
    load_file [[some 1, some 2], [none, some 5], [some 6]] =
      load_file [[some 1, some 2]] ++ load_file [[some 6]] :=
  C6_loader_amended.1 [[some 1, some 2]] [[some 6]] [none, some 5] (by simp)

/-- Claim C8, counterexample: `angle_diff` and the Interpolator's
circular-delta step are NOT extensionally the same rule: at the antipodal
tie (`a = 0`, `b = 180`, i.e. interpolating from `v_low = 180` to
`v_high = 0`), `angle_diff` returns `+180` while the Interpolator's
conditional adjustment keeps `-180`. -/
theorem C8_tie_disagreement_counterexample :
    angle_diff 0 180 = 180 ∧ codeCircDelta 180 0 = -180 ∧
    (180 : ℚ) ≠ -180 := by
  refine ⟨?_, ?_, by norm_num⟩
  · norm_num [angle_diff, qmod]
  · norm_num [codeCircDelta]

/-- Claim C8, amended: `angle_diff` is a pure function returning, for all
real inputs, a signed delta in `(-180, 180]` congruent to `a - b` modulo
`360`; it agrees with the Interpolator's circular-delta step on all
normalized endpoints except the antipodal tie `v_high - v_low = -180`, where
the two sites pick opposite signs (`+180` vs `-180`). -/
theorem C8_angle_diff_amended :
    (∀ a b : ℚ, -180 < angle_diff a b ∧ angle_diff a b ≤ 180 ∧
      ∃ k : ℤ, angle_diff a b = a - b - 360 * k) ∧
    (∀ v1 v2 : ℚ, 0 ≤ v1 → v1 < 360 → 0 ≤ v2 → v2 < 360 →
      v2 - v1 ≠ -180 → angle_diff v2 v1 = codeCircDelta v1 v2) := by
  constructor
  · intro a b
    obtain ⟨k0, hk0⟩ := qmod360_sub_int (a - b)
    have hlo := qmod360_nonneg (a - b)
    have hhi := qmod360_lt (a - b)
    simp only [angle_diff]
    split_ifs with h
    · exact ⟨by linarith, by linarith,
        ⟨k0 + 1, by push_cast; linarith⟩⟩
    · exact ⟨by linarith, by linarith, ⟨k0, by linarith⟩⟩
  · intro v1 v2 h1 h2 h3 h4 hne
    simp only [angle_diff, codeCircDelta]
    rcases lt_or_le (v2 - v1) 0 with hc | hc
    · have hdne : v2 - v1 ≠ -180 := hne
      have hq : qmod (v2 - v1) 360 = v2 - v1 + 360 := by
        rw [qmod360_eq (v2 - v1) (-1) (by push_cast; linarith)
          (by push_cast; linarith)]
        push_cast
        ring
      rw [hq]
      rcases lt_or_le (v2 - v1) (-180) with hc' | hc'
      · split_ifs <;> linarith
      · have hc'' : -180 < v2 - v1 := lt_of_le_of_ne hc' (Ne.symm hdne)
        split_ifs <;> linarith
    · have hq : qmod (v2 - v1) 360 = v2 - v1 := by
        rw [qmod360_eq (v2 - v1) 0 (by push_cast; linarith)
          (by push_cast; linarith)]
        push_cast
        ring
      rw [hq]
      split_ifs <;> linarith

theorem C8_angle_diff_amended_witness :
    (-180 < angle_diff 10 350 ∧ angle_diff 10 350 ≤ 180 ∧
      ∃ k : ℤ, angle_diff 10 350 = 10 - 350 - 360 * k) ∧
    angle_diff 350 10 = codeCircDelta 10 350 :=
  ⟨C8_angle_diff_amended.1 10 350,
    C8_angle_diff_amended.2 10 350 (by norm_num) (by norm_num) (by norm_num)
      (by norm_num) (by norm_num)⟩

/-- Claim C9: in every row of the merged planets dataset whose first body is
the Sun dict built by `fetch_body_data`'s Sun branch, the Sun's
HeliocentricDistance, HeliocentricLongitude and HeliocentricLatitude columns
(row indices 4, 5, 6) are exactly `0`, because the generator hardcodes them
(`h_dist, h_lon, h_lat = 0.0, 0.0, 0.0`) for every successfully parsed
line. -/
theorem C9_sun_helio_zero (sunLines : List (List Tok))
    (rest : List (List (ℚ × List ℚ))) (row : List ℚ)
    (hrow : row ∈ mergeEphemeris (parseBody true sunLines :: rest)) :
    row.getD 4 0 = 0 ∧ row.getD 5 0 = 0 ∧ row.getD 6 0 = 0 := by
  obtain ⟨jd, hall, heq⟩ := mem_mergeEphemeris _ _ _ hrow
  have hsun : (dictFind jd (parseBody true sunLines)).isSome :=
    List.all_eq_true.mp hall _ (List.mem_cons_self _ _)
  obtain ⟨v, hv⟩ := Option.isSome_iff_exists.mp hsun
  obtain ⟨parts, hp⟩ :=
    parseBody_mem true sunLines (jd, v) (dictFind_mem _ _ _ hv)
  rw [if_pos rfl] at hp
  obtain ⟨hlen, h3, h4, h5⟩ := parseSunLine_fields parts jd v hp
  rw [heq, List.map_cons, List.flatten_cons, hv]
  simp only [Option.getD_some]
  have h36 : 3 < v.length := by omega
  have h46 : 4 < v.length := by omega
  have h56 : 5 < v.length := by omega
  refine ⟨?_, ?_, ?_⟩
  · rw [List.getD_cons_succ, List.getD_append _ _ _ _ h36]
    exact h3
  · rw [List.getD_cons_succ, List.getD_append _ _ _ _ h46]
    exact h4
  · rw [List.getD_cons_succ, List.getD_append _ _ _ _ h56]
    exact h5

theorem C9_sun_helio_zero_witness :
    ([1, 0, 0, 5, 0, 0, 0] : List ℚ).getD 4 0 = 0 ∧
    ([1, 0, 0, 5, 0, 0, 0] : List ℚ).getD 5 0 = 0 ∧
    ([1, 0, 0, 5, 0, 0, 0] : List ℚ).getD 6 0 = 0 :=
  C9_sun_helio_zero
    [[⟨some 1, none, false⟩, ⟨none, none, false⟩, ⟨none, none, false⟩,
      ⟨none, none, false⟩, ⟨none, none, false⟩, ⟨some 5, none, false⟩]]
    [] [1, 0, 0, 5, 0, 0, 0]
    (by
      norm_num [mergeEphemeris, parseBody, parseBodyStep, parseSunLine,
        dictInsert, dictFind, hms_to_deg, dms_to_deg, roundDec])

/-- Claim C10: the merged planets CSV has its rows sorted in ascending
numeric Julian Date order; a row for a timestamp is emitted iff every one of
the 9 configured bodies has a parsed record at that exact timestamp; and
(with 6 fields per body record) every emitted row has the full
`1 + 9·6 = 55` columns. -/
theorem C10_merge_invariants (allData : List (List (ℚ × List ℚ)))
    (h9 : allData.length = 9)
    (hsrc : ∀ bd ∈ allData, ∃ isSun lines, bd = parseBody isSun lines) :
    List.Sorted (· ≤ ·) ((mergeEphemeris allData).map (·.headI)) ∧
    (∀ jd : ℚ, (∃ row ∈ mergeEphemeris allData, row.headI = jd) ↔
      ∀ bd ∈ allData, (dictFind jd bd).isSome) ∧
    ∀ row ∈ mergeEphemeris allData, row.length = 55 := by
  have hvals : ∀ bd ∈ allData, ∀ kv ∈ bd, (kv.2 : List ℚ).length = 6 := by
    intro bd hbd kv hkv
    obtain ⟨isSun, lines, rfl⟩ := hsrc bd hbd
    exact parseBody_record_length isSun lines kv hkv
  rcases allData with _ | ⟨d0, rest⟩
  · simp at h9
  refine ⟨?_, ?_, ?_⟩
  · have hmap : ((mergeEphemeris (d0 :: rest)).map (·.headI)) =
        ((d0.map Prod.fst).mergeSort).filter
          (fun jd => (d0 :: rest).all fun bd => (dictFind jd bd).isSome) := by
      unfold mergeEphemeris
      exact map_headI_filterMap _ _ _
    rw [hmap]
    exact (List.sorted_mergeSort' _).filter _
  · intro jd
    constructor
    · rintro ⟨row, hrow, hhead⟩
      obtain ⟨jd', hall, heq⟩ := mem_mergeEphemeris _ _ _ hrow
      have : jd' = jd := by rw [heq] at hhead; simpa using hhead
      subst this
      exact fun bd hbd => List.all_eq_true.mp hall bd hbd
    · intro hall
      obtain ⟨v, hv⟩ := Option.isSome_iff_exists.mp
        (hall d0 (List.mem_cons_self d0 rest))
      have hkey : jd ∈ (d0.map Prod.fst).mergeSort := by
        rw [List.mem_mergeSort]
        exact List.mem_map.mpr ⟨(jd, v), dictFind_mem _ _ _ hv, rfl⟩
      refine ⟨jd :: ((d0 :: rest).map fun bd => (dictFind jd bd).getD []).flatten,
        ?_, by simp⟩
      unfold mergeEphemeris
      refine List.mem_filterMap.mpr ⟨jd, hkey, ?_⟩
      rw [if_pos]
      exact List.all_eq_true.mpr fun bd hbd => hall bd hbd
  · intro row hrow
    obtain ⟨jd, hall, heq⟩ := mem_mergeEphemeris _ _ _ hrow
    have hlens : ∀ bd ∈ (d0 :: rest),
        (((dictFind jd bd).getD []) : List ℚ).length = 6 := by
      intro bd hbd
      obtain ⟨v, hv⟩ := Option.isSome_iff_exists.mp
        (List.all_eq_true.mp hall bd hbd)
      rw [hv, Option.getD_some]
      exact hvals bd hbd (jd, v) (dictFind_mem _ _ _ hv)
    rw [heq, List.length_cons,
      length_flatten_const (d0 :: rest) _ 6 hlens]
    simp only [List.length_cons] at h9 ⊢
    omega

theorem C10_merge_invariants_witness :
    List.Sorted (· ≤ ·)
      ((mergeEphemeris
        (List.replicate 9 (parseBody true
          [[⟨some 1, none, false⟩, ⟨none, none, false⟩, ⟨none, none, false⟩,
            ⟨none, none, false⟩, ⟨none, none, false⟩,
            ⟨some 5, none, false⟩]]))).map (·.headI)) ∧
    (∀ jd : ℚ,
      (∃ row ∈ mergeEphemeris
          (List.replicate 9 (parseBody true
            [[⟨some 1, none, false⟩, ⟨none, none, false⟩, ⟨none, none, false⟩,
              ⟨none, none, false⟩, ⟨none, none, false⟩,
              ⟨some 5, none, false⟩]])),
        row.headI = jd) ↔
      ∀ bd ∈ List.replicate 9 (parseBody true
          [[⟨some 1, none, false⟩, ⟨none, none, false⟩, ⟨none, none, false⟩,
            ⟨none, none, false⟩, ⟨none, none, false⟩,
            ⟨some 5, none, false⟩]]),
        (dictFind jd bd).isSome) ∧
    ∀ row ∈ mergeEphemeris
        (List.replicate 9 (parseBody true
          [[⟨some 1, none, false⟩, ⟨none, none, false⟩, ⟨none, none, false⟩,
            ⟨none, none, false⟩, ⟨none, none, false⟩,
            ⟨some 5, none, false⟩]])),
      row.length = 55 :=
  C10_merge_invariants
    (List.replicate 9 (parseBody true
      [[⟨some 1, none, false⟩, ⟨none, none, false⟩, ⟨none, none, false⟩,
        ⟨none, none, false⟩, ⟨none, none, false⟩, ⟨some 5, none, false⟩]]))
    (by simp)
    (fun bd hbd =>
      ⟨true,
        [[⟨some 1, none, false⟩, ⟨none, none, false⟩, ⟨none, none, false⟩,
          ⟨none, none, false⟩, ⟨none, none, false⟩, ⟨some 5, none, false⟩]],
        List.eq_of_mem_replicate hbd⟩)

end Orrery
